import Mathlib

/-!
Shallow embedding of the two optimizer modules of the `librarian_optimize`
repository:

* `src/villager_optimizations.py` — greedy fewest-villagers optimizer
  (`optimize_min_villagers`), per-enchantment cheapest optimizer
  (`optimize_min_cost`) and the priority-tiered optimizer
  (`optimize_priority_tiered`), all built on the price accessor
  `current_price_for`;
* `src/villager_optimizer.py` — `process_data`, `optimize_villagers`,
  `get_best_costs`, `find_missing_enchantments`.

Python dicts are modelled as association lists in insertion order (the
iteration order of a Python dict); Python sets of strings are modelled as
`Finset String`; integer trade prices are modelled as `Int`.
-/

namespace Librarian

/-- Association-list read, modelling Python `d[k]` / `d.get(k)`: the value at
the first matching key, `none` when the key is absent. -/
def alistGet {α β : Type} [DecidableEq α] (k : α) : List (α × β) → Option β
  | [] => none
  | (k', v) :: rest => if k' = k then some v else alistGet k rest

/-- Python `d[k] = v` on an insertion-ordered dict: replace the value in place
when the key exists (keeping its position), otherwise append the new pair. -/
def dictSet {α β : Type} [DecidableEq α] (d : List (α × β)) (k : α) (v : β) :
    List (α × β) :=
  match d with
  | [] => [(k, v)]
  | (k', v') :: rest => if k' = k then (k', v) :: rest else (k', v') :: dictSet rest k v

/-- Python `d.setdefault(k, dflt)` followed by an in-place update `f` of the
value: updates the stored value when the key exists, otherwise appends
`(k, f dflt)`. -/
def dictUpd {α β : Type} [DecidableEq α] (d : List (α × β)) (k : α) (f : β → β)
    (dflt : β) : List (α × β) :=
  match d with
  | [] => [(k, f dflt)]
  | (k', v') :: rest => if k' = k then (k', f v') :: rest else (k', v') :: dictUpd rest k f dflt

/-- Python `defaultdict(list)`: `d[k].append(x)`. -/
def dictAppend {α β : Type} [DecidableEq α] (d : List (α × List β)) (k : α)
    (x : β) : List (α × List β) :=
  dictUpd d k (fun l => l ++ [x]) []

end Librarian

namespace VillagerOpt

open Librarian

/-- Model of one trade value in the `{"pre": ..., "post": ...}` form of a
villager's enchantment entry: an `int`-convertible value, the literal `"X"`,
or `None` (also covering an absent field and values `int()` rejects, all of
which `current_price_for` maps to no usable price). -/
inductive TradeVal : Type
  | vint (n : Int)
  | vx
  | vnone
deriving DecidableEq

/-- Model of a villager's entry for one enchantment: either a legacy plain
`int` price, or the new `{"pre": ..., "post": ...}` dict. -/
inductive EnchData : Type
  | legacy (n : Int)
  | prepost (pre post : TradeVal)
deriving DecidableEq

/-- Model of one villager record: its `"enchantments"` dict (insertion order)
and the truthiness of its `"cured"` field. -/
structure VillagerData : Type where
  enchantments : List (String × EnchData)
  cured : Bool
deriving DecidableEq

/-- The `villagers` mapping: villager name → record, in insertion order. -/
abbrev Villagers : Type := List (String × VillagerData)

/-- Embedding of `current_price_for` (villager_optimizations.py lines
19-40): the effective trade price of `enchant` at `villager_name`, choosing
`post` if cured else `pre`, `none` when there is no usable price. Call sites
only pass names that are keys of `villagers`; a missing name is modelled as
no usable price. -/
def current_price_for (villagers : Villagers) (villager_name enchant : String) :
    Option Int :=
  match alistGet villager_name villagers with
  | none => none
  | some vd =>
    match alistGet enchant vd.enchantments with
    | none => none
    | some (.legacy n) => some n
    | some (.prepost pre post) =>
      match if vd.cured then post else pre with
      | .vint n => some n
      | .vx => none
      | .vnone => none

/-- The set of keys of a villager's `"enchantments"` dict
(`set(data["enchantments"])`). -/
def enchKeys (vd : VillagerData) : Finset String :=
  (vd.enchantments.map Prod.fst).toFinset

/-- One loop body of `optimize_min_villagers` computes, for a villager
`(name, data)`, the set `cov = {e for e in (set(data["enchantments"]) &
remaining) if current_price_for(villagers, name, e) is not None}`. -/
def covRem (villagers : Villagers) (nd : String × VillagerData)
    (remaining : Finset String) : Finset String :=
  (enchKeys nd.2 ∩ remaining).filter
    (fun e => (current_price_for villagers nd.1 e).isSome)

/-- A villager entry's full priced coverage: `covRem` against the whole
universe of its own keys, i.e. the items it can contribute at some price. -/
def covFull (villagers : Villagers) (nd : String × VillagerData) : Finset String :=
  (enchKeys nd.2).filter (fun e => (current_price_for villagers nd.1 e).isSome)

/-- The inner `for name, data in villagers.items()` scan of
`optimize_min_villagers`: starting from `best = (best_v, best_cov)`, replace
`best` whenever `len(cov) > len(best_cov)`. -/
def pickBestAux (villagers : Villagers) (remaining : Finset String) :
    Option String × Finset String → List (String × VillagerData) →
      Option String × Finset String
  | best, [] => best
  | best, nd :: rest =>
    let cov := covRem villagers nd remaining
    if best.2.card < cov.card then
      pickBestAux villagers remaining (some nd.1, cov) rest
    else
      pickBestAux villagers remaining best rest

/-- One full scan for the greedily best villager, starting from
`best_v, best_cov = None, set()`. -/
def pickBest (villagers : Villagers) (remaining : Finset String) :
    Option String × Finset String :=
  pickBestAux villagers remaining (none, ∅) villagers

/-- The value `{"enchantments": {e: current_price_for(villagers, v, e) for e
in cov}}` recorded for a selected villager, modelled as the finite map (set
of key/value pairs) it denotes. -/
def enchPriceMap (villagers : Villagers) (v : String) (cov : Finset String) :
    Finset (String × Option Int) :=
  cov.image (fun e => (e, current_price_for villagers v e))

/-- The accumulating `optimized` dict of the greedy optimizers: villager name
→ recorded enchantment/price map, in insertion order. -/
abbrev Optimized : Type := List (String × Finset (String × Option Int))

theorem pickBestAux_snd_subset (villagers : Villagers) (remaining : Finset String)
    (l : List (String × VillagerData)) (best : Option String × Finset String)
    (hb : best.2 ⊆ remaining) :
    (pickBestAux villagers remaining best l).2 ⊆ remaining := by
  induction l generalizing best with
  | nil => exact hb
  | cons nd rest ih =>
    simp only [pickBestAux]
    split
    · exact ih _ ((Finset.filter_subset _ _).trans Finset.inter_subset_right)
    · exact ih _ hb

theorem pickBest_snd_subset (villagers : Villagers) (remaining : Finset String) :
    (pickBest villagers remaining).2 ⊆ remaining :=
  pickBestAux_snd_subset villagers remaining villagers (none, ∅)
    (Finset.empty_subset remaining)

/-- Embedding of the `while remaining:` loop of `optimize_min_villagers`
(villager_optimizations.py lines 253-267), threading the loop state: the
`remaining` set and the `optimized` dict. The loop exits when `remaining` is
empty, and breaks when `not best_v or not best_cov` — note that Python
falsiness makes `not best_v` true both for `None` and for the empty villager
name `""`. -/
def greedyAux (villagers : Villagers) (remaining : Finset String)
    (optimized : Optimized) : Optimized :=
  if remaining = ∅ then optimized
  else
    match hp : pickBest villagers remaining with
    | (none, _) => optimized
    | (some best_v, best_cov) =>
      if best_v = "" ∨ best_cov = ∅ then optimized
      else
        greedyAux villagers (remaining \ best_cov)
          (dictSet optimized best_v (enchPriceMap villagers best_v best_cov))
termination_by remaining.card
decreasing_by
  have hsub : best_cov ⊆ remaining := by
    have := pickBest_snd_subset villagers remaining
    rw [hp] at this; exact this
  have hne : best_cov.Nonempty := by
    rcases Finset.eq_empty_or_nonempty best_cov with h | h
    · simp_all
    · exact h
  exact Finset.card_lt_card (Finset.sdiff_ssubset hsub hne)

/-- Embedding of `optimize_min_villagers` (villager_optimizations.py lines
253-267): `remaining = set(required)`, then the greedy while loop starting
from an empty `optimized` dict. -/
def optimize_min_villagers (villagers : Villagers) (required : Finset String) :
    Optimized :=
  greedyAux villagers required []

/-- The union of the enchantment sets recorded in an `optimized` dict
(`{e for data in optimized.values() for e in data["enchantments"]}`). -/
def unionCov (opt : Optimized) : Finset String :=
  opt.foldr (fun p acc => p.2.image Prod.fst ∪ acc) ∅

/-- The union of all villagers' priced coverage: the set of required items
that some villager can supply at a usable price. -/
def allCoverable (villagers : Villagers) : Finset String :=
  villagers.foldr (fun nd acc => covFull villagers nd ∪ acc) ∅

/-- Model of the Python float values flowing through the cost comparisons:
either an actual `int` price or `float("inf")`. -/
inductive PyFloat : Type
  | fin (n : Int)
  | inf
deriving DecidableEq

/-- Python `price < best_price` where `price` is an `int` and `best_price` may
be `float("inf")`. -/
def intLtPF (n : Int) : PyFloat → Bool
  | .fin m => n < m
  | .inf => true

/-- Python `price == best_price` where `best_price` may be `float("inf")` (an
`int` never equals `inf`). -/
def intEqPF (n : Int) : PyFloat → Bool
  | .fin m => n = m
  | .inf => false

/-- Python `best_name is None or name < best_name` in `optimize_min_cost`. -/
def nameBeatsTie (name : String) : Option String → Bool
  | none => true
  | some bn => decide (name < bn)

/-- The inner `for name in villagers` scan of `optimize_min_cost`
(villager_optimizations.py lines 270-283), threading
`(best_name, best_price)`; the initial `(None, float("inf"))` pair is
`(none, .inf)`. -/
def minCostScan (villagers : Villagers) (enchant : String) :
    Option String × PyFloat → List (String × VillagerData) →
      Option String × PyFloat
  | best, [] => best
  | best, nd :: rest =>
    match current_price_for villagers nd.1 enchant with
    | none => minCostScan villagers enchant best rest
    | some price =>
      if intLtPF price best.2 || (intEqPF price best.2 && nameBeatsTie nd.1 best.1) then
        minCostScan villagers enchant (some nd.1, .fin price) rest
      else
        minCostScan villagers enchant best rest

/-- Embedding of `optimize_min_cost` (villager_optimizations.py lines
270-283): for each enchantment of `sorted(required)`, scan all villagers for
the cheapest usable price (ties by smaller name), then record it under the
winning villager (`result.setdefault(best_name, ...)` plus assignment into
its inner dict). The scan's invariant ties `best_name is None` to
`best_price == inf`, so the `(some _, .inf)` shape never occurs; it falls
into the no-record arm together with `best_name is None`. -/
def optimize_min_cost (villagers : Villagers) (required : Finset String) :
    List (String × List (String × Int)) :=
  (required.sort (· ≤ ·)).foldl
    (fun result enchant =>
      match minCostScan villagers enchant (none, .inf) villagers with
      | (some best_name, .fin best_price) =>
        dictUpd result best_name (fun inner => dictSet inner enchant best_price) []
      | _ => result)
    []

/-- Python `enchant_priority.get(e, 10)` used by `optimize_priority_tiered`. -/
def pGet (enchant_priority : List (String × Int)) (e : String) : Int :=
  (alistGet e enchant_priority).getD 10

/-- Embedding of the nested `cheapest_and_second` helper of
`optimize_priority_tiered` (villager_optimizations.py lines 297-307). The
Python triple `(best, best_price, second)` keeps `best is None` exactly when
`best_price == inf`, so the pair is packaged as `Option (String × Int)`;
`second` is a genuine float that can be `inf` (it receives the previous
`best_price` on the first update). -/
def cheapSecond (villagers : Villagers) (e : String) :
    Option (String × Int) × Option PyFloat :=
  villagers.foldl
    (fun st nd =>
      match current_price_for villagers nd.1 e with
      | none => st
      | some p =>
        let bp : PyFloat := match st.1 with | none => .inf | some b => .fin b.2
        if intLtPF p bp then (some (nd.1, p), some bp)
        else
          match st.2 with
          | none => (st.1, some (.fin p))
          | some s => if intLtPF p s then (st.1, some (.fin p)) else st)
    (none, none)

/-- The P1 phase body of `optimize_priority_tiered` (lines 311-314):
`v_best, _, _ = cheapest_and_second(e); if v_best:
chosen.setdefault(v_best, set()).add(e)` — Python falsiness of `v_best`
covers both `None` and the empty name. -/
def tieredP1step (villagers : Villagers)
    (chosen : List (String × Finset String)) (e : String) :
    List (String × Finset String) :=
  match (cheapSecond villagers e).1 with
  | none => chosen
  | some (v_best, _) =>
    if v_best = "" then chosen
    else dictUpd chosen v_best (fun s => insert e s) ∅

/-- The P2 phase body of `optimize_priority_tiered` (lines 316-332): keep the
enchantment with an already chosen villager when the price gap to the
cheapest is within the threshold, or when the second-cheapest offer is; an
`inf` second (single offer) or a missing `p_chosen_best` never passes its
gap test. -/
def tieredP2step (villagers : Villagers) (p2_threshold : Int)
    (chosen : List (String × Finset String)) (e : String) :
    List (String × Finset String) :=
  match cheapSecond villagers e with
  | (none, _) => chosen
  | (some (v_best, p_best), second) =>
    if v_best = "" then chosen
    else
      let p_chosen_best : Option Int :=
        ((chosen.map Prod.fst).filterMap
          (fun v => current_price_for villagers v e)).min?
      let cond1 : Bool :=
        match p_chosen_best with
        | some pcb => decide (pcb - p_best ≤ p2_threshold)
        | none => false
      let cond2 : Bool :=
        match second with
        | some (.fin s) => decide (s - p_best ≤ p2_threshold)
        | some .inf => false
        | none => false
      if (alistGet v_best chosen).isSome then
        dictUpd chosen v_best (fun s => insert e s) ∅
      else if cond1 then chosen
      else if cond2 then chosen
      else dictUpd chosen v_best (fun s => insert e s) ∅

/-- The trailing cover-remaining loop of `optimize_priority_tiered` (lines
339-352): the same greedy scan as `optimize_min_villagers`, but accumulating
into the existing `optimized` dict via `setdefault` and per-key assignment
(the inserted pairs recompute `current_price_for`, so a key that is already
present receives the same value and the union adds nothing new for it). -/
def tieredTail (villagers : Villagers) (remaining : Finset String)
    (optimized : Optimized) : Optimized :=
  if remaining = ∅ then optimized
  else
    match hp : pickBest villagers remaining with
    | (none, _) => optimized
    | (some best_v, best_cov) =>
      if best_v = "" ∨ best_cov = ∅ then optimized
      else
        tieredTail villagers (remaining \ best_cov)
          (dictUpd optimized best_v
            (fun m => m ∪ enchPriceMap villagers best_v best_cov) ∅)
termination_by remaining.card
decreasing_by
  have hsub : best_cov ⊆ remaining := by
    have := pickBest_snd_subset villagers remaining
    rw [hp] at this; exact this
  have hne : best_cov.Nonempty := by
    rcases Finset.eq_empty_or_nonempty best_cov with h | h
    · simp_all
    · exact h
  exact Finset.card_lt_card (Finset.sdiff_ssubset hsub hne)

/-- Embedding of `optimize_priority_tiered` (villager_optimizations.py lines
286-352). The source also computes `p_other = required - p1 - p2` but never
uses it. -/
def optimize_priority_tiered (villagers : Villagers) (required : Finset String)
    (enchant_priority : List (String × Int)) (p2_threshold : Int) : Optimized :=
  let p1 := required.filter (fun e => pGet enchant_priority e = 1)
  let p2 := required.filter (fun e => pGet enchant_priority e = 2)
  let chosen1 := (p1.sort (· ≤ ·)).foldl (tieredP1step villagers) []
  let chosen2 := (p2.sort (· ≤ ·)).foldl (tieredP2step villagers p2_threshold) chosen1
  let optimized0 : Optimized :=
    chosen2.map (fun p => (p.1, enchPriceMap villagers p.1 p.2))
  let assigned := unionCov optimized0
  tieredTail villagers (required \ assigned) optimized0

/-- Call-level view of `optimize_min_villagers`, threading the caller's
objects through the call: the body's only assignments target the locals
`remaining` (initialized as the fresh copy `set(required)`), `optimized`,
`best_v`, `best_cov` and `cov`; no statement assigns into the caller's
`villagers` or `required`, so the call hands them back unchanged. -/
def optimize_min_villagers_call (villagers : Villagers) (required : Finset String) :
    Optimized × (Villagers × Finset String) :=
  (optimize_min_villagers villagers required, (villagers, required))

/-- Call-level view of `optimize_priority_tiered`: its mutations target only
the locals `chosen` (fresh sets created by `setdefault(v, set())`),
`optimized` and the loop variables; `required - p1 - p2` and `remaining =
required - assigned` build new sets, so the caller's `villagers`, `required`
and `enchant_priority` come back unchanged. -/
def optimize_priority_tiered_call (villagers : Villagers) (required : Finset String)
    (enchant_priority : List (String × Int)) (p2_threshold : Int) :
    Optimized × (Villagers × Finset String × List (String × Int)) :=
  (optimize_priority_tiered villagers required enchant_priority p2_threshold,
    (villagers, required, enchant_priority))

end VillagerOpt

namespace VOpt

open Librarian

/-- Model of the JSON input of villager_optimizer.py: enchantment name →
(villager id → cost), in insertion order. Villager keys are already the
integers `int(villager)` produces. -/
abbrev Data : Type := List (String × List (Nat × Int))

/-- One `(villager, cost)` step of the inner loop of `process_data`:
`villager_enchantments[villager].append((enchantment, cost))` and
`enchantment_costs[enchantment].append((villager, cost))`. -/
def processPair (enchantment : String)
    (st : List (Nat × List (String × Int)) × List (String × List (Nat × Int)))
    (vc : Nat × Int) :
    List (Nat × List (String × Int)) × List (String × List (Nat × Int)) :=
  (dictAppend st.1 vc.1 (enchantment, vc.2),
   dictAppend st.2 enchantment (vc.1, vc.2))

/-- One outer-loop step of `process_data`: `enchantment_costs[enchantment] =
[]`, then the inner loop over the entry's `(villager, cost)` pairs. -/
def processEntry
    (st : List (Nat × List (String × Int)) × List (String × List (Nat × Int)))
    (entry : String × List (Nat × Int)) :
    List (Nat × List (String × Int)) × List (String × List (Nat × Int)) :=
  entry.2.foldl (processPair entry.1) (st.1, dictSet st.2 entry.1 [])

/-- Embedding of `process_data` (villager_optimizer.py lines 13-24): set
`enchantment_costs[enchantment] = []`, then for each `(villager, cost)` append
`(enchantment, cost)` to `villager_enchantments[villager]` and
`(villager, cost)` to `enchantment_costs[enchantment]`. Returns
`(villager_enchantments, enchantment_costs)`. -/
def process_data (data : Data) :
    List (Nat × List (String × Int)) × List (String × List (Nat × Int)) :=
  data.foldl processEntry ([], [])

/-- Stable insertion of an entry into a list sorted by descending length of
the value list: the entry goes in front of the first element whose list is
not longer. -/
def insertByLen (x : Nat × List (String × Int)) :
    List (Nat × List (String × Int)) → List (Nat × List (String × Int))
  | [] => [x]
  | y :: ys => if y.2.length ≤ x.2.length then x :: y :: ys else y :: insertByLen x ys

/-- Model of Python's stable
`sorted(villager_enchantments.items(), key=lambda x: len(x[1]), reverse=True)`
as a stable insertion sort (a stable sort's output is unique, so any stable
sort with this key agrees with CPython's). -/
def sortByLenDesc : List (Nat × List (String × Int)) →
    List (Nat × List (String × Int))
  | [] => []
  | x :: xs => insertByLen x (sortByLenDesc xs)

/-- One `(enchantment, cost)` step of `optimize_villagers` for the villager
`villager`: record the pair when the enchantment is new, replace it (marking
both villagers selected) when the cost strictly improves, else no change. -/
def optStep (st : List (Nat × Bool) × List (String × Nat × Int))
    (villager : Nat) (ec : String × Int) :
    List (Nat × Bool) × List (String × Nat × Int) :=
  match alistGet ec.1 st.2 with
  | none => (dictSet st.1 villager true, dictSet st.2 ec.1 (villager, ec.2))
  | some pv =>
    if ec.2 < pv.2 then
      (dictSet (dictSet st.1 villager true) pv.1 true,
       dictSet st.2 ec.1 (villager, ec.2))
    else st

/-- The inner `for enchantment, cost in enchantments` loop of
`optimize_villagers` for one villager. -/
def optVillager (st : List (Nat × Bool) × List (String × Nat × Int))
    (ve : Nat × List (String × Int)) :
    List (Nat × Bool) × List (String × Nat × Int) :=
  ve.2.foldl (fun st2 ec => optStep st2 ve.1 ec) st

/-- Embedding of `optimize_villagers` (villager_optimizer.py lines 85-103):
walk the villagers sorted by number of enchantments (descending), keep for
each enchantment the cheapest `(villager, cost)` pair seen (strict
improvement only), marking villagers in `selected_villagers`. The
`cost_threshold` parameter is received but never read by the body. Returns
`(selected_villagers, optimal_set)`. -/
def optimize_villagers (villager_enchantments : List (Nat × List (String × Int)))
    (enchantment_costs : List (String × List (Nat × Int)))
    (cost_threshold : Int) :
    List (Nat × Bool) × List (String × Nat × Int) :=
  let sorted_villagers := sortByLenDesc villager_enchantments
  sorted_villagers.foldl optVillager ([], [])

/-- Python `min(cost for _, cost in costs) if costs else None`. -/
def bestOf (costs : List (Nat × Int)) : Option Int :=
  match costs with
  | [] => none
  | c :: rest => some (rest.foldl (fun m p => min m p.2) c.2)

/-- Embedding of `get_best_costs` (villager_optimizer.py lines 106-110):
`best_costs[enchantment] = min(cost for _, cost in costs) if costs else
None`. -/
def get_best_costs (enchantment_costs : List (String × List (Nat × Int))) :
    List (String × Option Int) :=
  enchantment_costs.foldl (fun best ec => dictSet best ec.1 (bestOf ec.2)) []

/-- Embedding of `find_missing_enchantments` (villager_optimizer.py lines
119-122): `sorted(set(enchantment_costs) - set(optimal_set))`. -/
def find_missing_enchantments (enchantment_costs : List (String × List (Nat × Int)))
    (optimal_set : List (String × Nat × Int)) : List String :=
  (((enchantment_costs.map Prod.fst).toFinset) \
    ((optimal_set.map Prod.fst).toFinset)).sort (· ≤ ·)

/-- Call-level view of `optimize_villagers`: `sorted(...)` allocates a new
list, the loop reads the input tuples without writing, and the two result
dicts are fresh; the caller's `villager_enchantments` and `enchantment_costs`
come back unchanged. -/
def optimize_villagers_call (villager_enchantments : List (Nat × List (String × Int)))
    (enchantment_costs : List (String × List (Nat × Int)))
    (cost_threshold : Int) :
    (List (Nat × Bool) × List (String × Nat × Int)) ×
      (List (Nat × List (String × Int)) × List (String × List (Nat × Int))) :=
  (optimize_villagers villager_enchantments enchantment_costs cost_threshold,
    (villager_enchantments, enchantment_costs))

end VOpt

namespace Librarian

theorem alistGet_mem {α β : Type} [DecidableEq α] {k : α} {x : β} :
    ∀ {l : List (α × β)}, alistGet k l = some x → (k, x) ∈ l := by
  intro l
  induction l with
  | nil => intro h; simp [alistGet] at h
  | cons p rest ih =>
    intro h
    rw [alistGet] at h
    split at h
    · rename_i heq
      cases h
      rw [← heq]
      exact List.mem_cons_self _ _
    · exact List.mem_cons_of_mem _ (ih h)

theorem alistGet_isSome_of_mem {α β : Type} [DecidableEq α] {k : α} {x : β} :
    ∀ {l : List (α × β)}, (k, x) ∈ l → ∃ y, alistGet k l = some y := by
  intro l
  induction l with
  | nil => intro h; simp at h
  | cons p rest ih =>
    intro h
    rw [alistGet]
    split
    · exact ⟨p.2, rfl⟩
    · rename_i hne
      rcases List.mem_cons.mp h with h1 | h1
      · exact absurd (congrArg Prod.fst h1.symm) hne
      · exact ih h1

theorem dictSet_eq_append {α β : Type} [DecidableEq α] {k : α} {v : β} :
    ∀ {l : List (α × β)}, k ∉ l.map Prod.fst → dictSet l k v = l ++ [(k, v)] := by
  intro l
  induction l with
  | nil => intro _; rfl
  | cons p rest ih =>
    intro h
    rw [List.map_cons, List.mem_cons, not_or] at h
    rw [dictSet, if_neg (fun he => h.1 he.symm), ih h.2]
    rfl

end Librarian

namespace VillagerOpt

open Librarian

theorem pickBestAux_card_ge_init (villagers : Villagers) (remaining : Finset String)
    (l : List (String × VillagerData)) (best : Option String × Finset String) :
    best.2.card ≤ (pickBestAux villagers remaining best l).2.card := by
  induction l generalizing best with
  | nil => exact le_rfl
  | cons nd rest ih =>
    rw [pickBestAux]
    split
    · rename_i h
      exact le_trans (le_of_lt h)
        (ih (some nd.1, covRem villagers nd remaining))
    · exact ih best

theorem pickBestAux_max (villagers : Villagers) (remaining : Finset String)
    {l : List (String × VillagerData)} {nd : String × VillagerData} (hmem : nd ∈ l)
    (best : Option String × Finset String) :
    (covRem villagers nd remaining).card ≤ (pickBestAux villagers remaining best l).2.card := by
  induction l generalizing best with
  | nil => simp at hmem
  | cons hd rest ih =>
    rw [pickBestAux]
    rcases List.mem_cons.mp hmem with h1 | h1
    · subst h1
      split
      · exact pickBestAux_card_ge_init villagers remaining rest
          (some nd.1, covRem villagers nd remaining)
      · rename_i h
        exact le_trans (not_lt.mp h)
          (pickBestAux_card_ge_init villagers remaining rest best)
    · split
      · exact ih h1 _
      · exact ih h1 _

theorem pickBestAux_fst_none (villagers : Villagers) (remaining : Finset String)
    {l : List (String × VillagerData)} {best : Option String × Finset String}
    (h : (pickBestAux villagers remaining best l).1 = none) :
    pickBestAux villagers remaining best l = best := by
  induction l generalizing best with
  | nil => rfl
  | cons nd rest ih =>
    rw [pickBestAux] at h
    split at h <;> rename_i hc
    · have h2 := ih h
      rw [h2] at h
      simp at h
    · rw [pickBestAux, if_neg hc]
      exact ih h

theorem pickBestAux_split (villagers : Villagers) (remaining : Finset String)
    {l : List (String × VillagerData)} {best : Option String × Finset String}
    {v : String} {cov : Finset String}
    (h : pickBestAux villagers remaining best l = (some v, cov)) :
    pickBestAux villagers remaining best l = best ∨
    ∃ l₁ d l₂, l = l₁ ++ (v, d) :: l₂ ∧ cov = covRem villagers (v, d) remaining ∧
      best.2.card < cov.card ∧
      ∀ nd ∈ l₁, (covRem villagers nd remaining).card < cov.card := by
  induction l generalizing best with
  | nil => exact Or.inl rfl
  | cons hd rest ih =>
    obtain ⟨n, dd⟩ := hd
    rw [pickBestAux] at h
    split at h <;> rename_i hc
    · rcases ih h with h1 | h1
      · -- the recursive scan kept (some n, covRem (n, dd)); this entry is chosen
        rw [h1] at h
        rw [Prod.mk.injEq] at h
        obtain ⟨hv, hcv⟩ := h
        cases Option.some.inj hv
        subst hcv
        exact Or.inr ⟨[], dd, rest, rfl, rfl, hc, by intro nd hnd; simp at hnd⟩
      · obtain ⟨l₁, d, l₂, hsplit, hcov, hcard, hall⟩ := h1
        refine Or.inr ⟨(n, dd) :: l₁, d, l₂, by rw [hsplit, List.cons_append], hcov,
          lt_trans hc hcard, ?_⟩
        intro nd hnd
        rcases List.mem_cons.mp hnd with h2 | h2
        · subst h2; exact hcard
        · exact hall nd h2
    · rcases ih h with h1 | h1
      · exact Or.inl (by rw [pickBestAux, if_neg hc]; exact h1)
      · obtain ⟨l₁, d, l₂, hsplit, hcov, hcard, hall⟩ := h1
        refine Or.inr ⟨(n, dd) :: l₁, d, l₂, by rw [hsplit, List.cons_append], hcov,
          hcard, ?_⟩
        intro nd hnd
        rcases List.mem_cons.mp hnd with h2 | h2
        · subst h2; exact lt_of_le_of_lt (not_lt.mp hc) hcard
        · exact hall nd h2

theorem pickBest_mem {villagers : Villagers} {remaining : Finset String}
    {v : String} {cov : Finset String}
    (h : pickBest villagers remaining = (some v, cov)) :
    (∃ d, (v, d) ∈ villagers ∧ cov = covRem villagers (v, d) remaining) ∧
      cov.Nonempty := by
  rw [pickBest] at h
  rcases pickBestAux_split villagers remaining h with h1 | h1
  · rw [h1] at h
    simp at h
  · obtain ⟨l₁, d, l₂, hsplit, hcov, hcard, -⟩ := h1
    refine ⟨⟨d, ?_, hcov⟩, ?_⟩
    · rw [hsplit]
      exact List.mem_append_right _ (List.mem_cons_self _ _)
    · exact Finset.card_pos.mp (lt_of_le_of_lt (Nat.zero_le _) hcard)

theorem pickBest_max (villagers : Villagers) (remaining : Finset String)
    {nd : String × VillagerData} (hmem : nd ∈ villagers) :
    (covRem villagers nd remaining).card ≤ (pickBest villagers remaining).2.card :=
  pickBestAux_max villagers remaining hmem _

theorem pickBest_fst_none {villagers : Villagers} {remaining : Finset String}
    (h : (pickBest villagers remaining).1 = none) :
    pickBest villagers remaining = (none, ∅) :=
  pickBestAux_fst_none villagers remaining h

theorem covRem_eq_inter (villagers : Villagers) (nd : String × VillagerData)
    (remaining : Finset String) :
    covRem villagers nd remaining = covFull villagers nd ∩ remaining := by
  ext e
  simp only [covRem, covFull, Finset.mem_filter, Finset.mem_inter]
  tauto

theorem priced_mem_lookup {villagers : Villagers} {v e : String} {dLook : VillagerData}
    (hl : alistGet v villagers = some dLook)
    (hp : (current_price_for villagers v e).isSome) : e ∈ enchKeys dLook := by
  rcases hget : alistGet e dLook.enchantments with - | ed
  · exfalso
    simp [current_price_for, hl, hget] at hp
  · have hmem : (e, ed) ∈ dLook.enchantments := alistGet_mem hget
    simp only [enchKeys, List.mem_toFinset, List.mem_map]
    exact ⟨(e, ed), hmem, rfl⟩

theorem covRem_subset_lookup {villagers : Villagers} {v : String}
    (d : VillagerData) {dLook : VillagerData} (remaining : Finset String)
    (hl : alistGet v villagers = some dLook) :
    covRem villagers (v, d) remaining ⊆ covRem villagers (v, dLook) remaining := by
  intro e he
  simp only [covRem, Finset.mem_filter, Finset.mem_inter] at he ⊢
  exact ⟨⟨priced_mem_lookup hl he.2, he.1.2⟩, he.2⟩

/-- If the scan returns `(some v, cov)`, then `cov` contains every coverage
any entry named `v` has against `remaining` (even with duplicate names, since
`current_price_for` looks the name up from the front). -/
theorem pickBest_cov_dominates {villagers : Villagers} {remaining : Finset String}
    {v : String} {cov : Finset String}
    (h : pickBest villagers remaining = (some v, cov)) :
    ∀ d, (v, d) ∈ villagers → covRem villagers (v, d) remaining ⊆ cov := by
  obtain ⟨⟨d₀, hd₀, hcov⟩, -⟩ := pickBest_mem h
  obtain ⟨dL, hL⟩ := alistGet_isSome_of_mem hd₀
  have hmemL : (v, dL) ∈ villagers := alistGet_mem hL
  have h1 : covRem villagers (v, d₀) remaining ⊆ covRem villagers (v, dL) remaining :=
    covRem_subset_lookup d₀ remaining hL
  have h2 : (covRem villagers (v, dL) remaining).card ≤ cov.card := by
    have := pickBest_max villagers remaining hmemL
    rw [h] at this
    exact this
  have heq : cov = covRem villagers (v, dL) remaining :=
    Finset.eq_of_subset_of_card_le (hcov ▸ h1) h2
  intro d hd
  rw [heq]
  exact covRem_subset_lookup d remaining hL

theorem unionCov_append (l₁ l₂ : Optimized) :
    unionCov (l₁ ++ l₂) = unionCov l₁ ∪ unionCov l₂ := by
  induction l₁ with
  | nil => simp [unionCov]
  | cons p rest ih =>
    show p.2.image Prod.fst ∪ unionCov (rest ++ l₂) = _
    rw [ih]
    exact (Finset.union_assoc _ _ _).symm

theorem enchPriceMap_image_fst (villagers : Villagers) (v : String)
    (cov : Finset String) : (enchPriceMap villagers v cov).image Prod.fst = cov := by
  rw [enchPriceMap, Finset.image_image]
  exact Finset.image_id

theorem foldr_covFull_mem (villagers : Villagers)
    (l : List (String × VillagerData)) (e : String) :
    (e ∈ l.foldr (fun nd acc => covFull villagers nd ∪ acc) ∅) ↔
      ∃ nd ∈ l, e ∈ covFull villagers nd := by
  induction l with
  | nil => simp
  | cons nd rest ih =>
    simp only [List.foldr_cons, Finset.mem_union, ih, List.mem_cons]
    constructor
    · rintro (h | ⟨nd', h1, h2⟩)
      · exact ⟨nd, Or.inl rfl, h⟩
      · exact ⟨nd', Or.inr h1, h2⟩
    · rintro ⟨nd', h1 | h1, h2⟩
      · subst h1; exact Or.inl h2
      · exact Or.inr ⟨nd', h1, h2⟩

theorem mem_allCoverable {villagers : Villagers} {e : String} :
    e ∈ allCoverable villagers ↔ ∃ nd ∈ villagers, e ∈ covFull villagers nd :=
  foldr_covFull_mem villagers villagers e

theorem greedyAux_of_empty (villagers : Villagers) {remaining : Finset String}
    (acc : Optimized) (hR : remaining = ∅) :
    greedyAux villagers remaining acc = acc := by
  rw [greedyAux, if_pos hR]

theorem greedyAux_of_none (villagers : Villagers) {remaining : Finset String}
    (acc : Optimized) (hp : (pickBest villagers remaining).1 = none) :
    greedyAux villagers remaining acc = acc := by
  rw [greedyAux]
  split
  · rfl
  · rw [pickBest_fst_none hp]

theorem greedyAux_of_guard (villagers : Villagers) {remaining : Finset String}
    (acc : Optimized) {v : String} {cov : Finset String}
    (hp : pickBest villagers remaining = (some v, cov)) (hg : v = "" ∨ cov = ∅) :
    greedyAux villagers remaining acc = acc := by
  rw [greedyAux]
  split
  · rfl
  · rw [hp]
    simp [hg]

theorem greedyAux_step (villagers : Villagers) {remaining : Finset String}
    (acc : Optimized) {v : String} {cov : Finset String} (hR : remaining ≠ ∅)
    (hp : pickBest villagers remaining = (some v, cov)) (hg : ¬(v = "" ∨ cov = ∅)) :
    greedyAux villagers remaining acc =
      greedyAux villagers (remaining \ cov)
        (dictSet acc v (enchPriceMap villagers v cov)) := by
  rw [greedyAux, if_neg hR, hp]
  simp [hg]

/-- Invariant of the greedy loop: every villager already recorded in
`optimized` has no priced coverage left inside `remaining` (under any of its
entries, in case of duplicate names). -/
def SelInv (villagers : Villagers) (remaining : Finset String) (acc : Optimized) :
    Prop :=
  ∀ p ∈ acc, ∀ d, (p.1, d) ∈ villagers →
    covFull villagers (p.1, d) ∩ remaining = ∅

/-- Core characterization of the greedy loop: provided no villager has the
empty name (Python falsiness), the items recorded by the loop are exactly the
still-remaining items some villager can supply at a usable price. -/
theorem greedyAux_union (villagers : Villagers)
    (hV : ∀ nd ∈ villagers, nd.1 ≠ "") (remaining : Finset String)
    (acc : Optimized) (hinv : SelInv villagers remaining acc) :
    unionCov (greedyAux villagers remaining acc) =
      unionCov acc ∪ (remaining ∩ allCoverable villagers) := by
  revert hinv
  induction remaining, acc using greedyAux.induct villagers with
  | case1 acc =>
    intro _
    rw [greedyAux_of_empty villagers acc rfl]
    simp
  | case2 R acc hR snd hp =>
    intro _
    rw [greedyAux_of_none villagers acc (by rw [hp])]
    have hall : R ∩ allCoverable villagers = ∅ := by
      rw [Finset.eq_empty_iff_forall_not_mem]
      intro e he
      rw [Finset.mem_inter, mem_allCoverable] at he
      obtain ⟨heR, nd, hnd, hecov⟩ := he
      have hmax := pickBest_max villagers R hnd
      rw [pickBest_fst_none (by rw [hp])] at hmax
      simp only [Finset.card_empty, Nat.le_zero, Finset.card_eq_zero] at hmax
      have : e ∈ covRem villagers nd R := by
        rw [covRem_eq_inter, Finset.mem_inter]
        exact ⟨hecov, heR⟩
      rw [hmax] at this
      simp at this
    rw [hall]
    simp
  | case3 R acc hR v cov hp hg =>
    intro _
    exfalso
    obtain ⟨⟨d, hd, -⟩, hne⟩ := pickBest_mem hp
    rcases hg with hg | hg
    · exact hV (v, d) hd hg
    · rw [hg] at hne
      exact Finset.not_nonempty_empty hne
  | case4 R acc hR v cov hp hg ih =>
    intro hinv
    obtain ⟨⟨d₀, hd₀, hcov⟩, hne⟩ := pickBest_mem hp
    -- the chosen villager is not yet recorded
    have hvnotin : v ∉ acc.map Prod.fst := by
      intro hmem
      obtain ⟨p, hpacc, hp1⟩ := List.mem_map.mp hmem
      have h0 := hinv p hpacc d₀ (by rw [hp1]; exact hd₀)
      rw [hp1] at h0
      rw [hcov, covRem_eq_inter, h0] at hne
      exact Finset.not_nonempty_empty hne
    have happ : dictSet acc v (enchPriceMap villagers v cov) =
        acc ++ [(v, enchPriceMap villagers v cov)] :=
      dictSet_eq_append hvnotin
    -- new invariant after removing cov from remaining
    have hinv' : SelInv villagers (R \ cov)
        (dictSet acc v (enchPriceMap villagers v cov)) := by
      rw [happ]
      intro p hpacc d hd
      rcases List.mem_append.mp hpacc with hmem | hmem
      · have h0 := hinv p hmem d hd
        rw [Finset.eq_empty_iff_forall_not_mem] at h0 ⊢
        intro e he
        rw [Finset.mem_inter, Finset.mem_sdiff] at he
        exact h0 e (Finset.mem_inter.mpr ⟨he.1, he.2.1⟩)
      · have hpv : p = (v, enchPriceMap villagers v cov) := by simpa using hmem
        have hd' : (v, d) ∈ villagers := by rw [hpv] at hd; exact hd
        rw [hpv]
        rw [Finset.eq_empty_iff_forall_not_mem]
        intro e he
        rw [Finset.mem_inter, Finset.mem_sdiff] at he
        obtain ⟨hecov, heR, henc⟩ := he
        have hrem : e ∈ covRem villagers (v, d) R := by
          rw [covRem_eq_inter, Finset.mem_inter]
          exact ⟨hecov, heR⟩
        exact henc (pickBest_cov_dominates hp d hd' hrem)
    rw [greedyAux_step villagers acc hR hp hg, ih hinv', happ, unionCov_append]
    have hsingle : unionCov [(v, enchPriceMap villagers v cov)] = cov := by
      show (enchPriceMap villagers v cov).image Prod.fst ∪ ∅ = cov
      rw [Finset.union_empty, enchPriceMap_image_fst]
    rw [hsingle]
    have hsub : cov ⊆ R := by
      have h0 := pickBest_snd_subset villagers R
      rw [hp] at h0
      exact h0
    have hcovsub : cov ⊆ R ∩ allCoverable villagers := by
      intro e he
      rw [Finset.mem_inter]
      refine ⟨hsub he, ?_⟩
      rw [mem_allCoverable]
      refine ⟨(v, d₀), hd₀, ?_⟩
      have h1 : e ∈ covRem villagers (v, d₀) R := hcov ▸ he
      rw [covRem_eq_inter, Finset.mem_inter] at h1
      exact h1.1
    have hsd : (R \ cov) ∩ allCoverable villagers =
        (R ∩ allCoverable villagers) \ cov := by
      ext e
      simp only [Finset.mem_sdiff, Finset.mem_inter]
      tauto
    rw [hsd, Finset.union_assoc, Finset.union_sdiff_of_subset hcovsub]

end VillagerOpt

namespace VillagerOpt

open Librarian

/-- Helper: the union of the coverage recorded by `optimize_min_villagers` is
exactly the coverable part of the required set. -/
theorem optimize_min_villagers_unionCov (villagers : Villagers)
    (hV : ∀ nd ∈ villagers, nd.1 ≠ "") (required : Finset String) :
    unionCov (optimize_min_villagers villagers required) =
      required ∩ allCoverable villagers := by
  rw [optimize_min_villagers]
  have h := greedyAux_union villagers hV required [] (by intro p hp; simp at hp)
  rw [h, show unionCov [] = ∅ from rfl, Finset.empty_union]

/-- C4: for every provider list (including nonempty ones), calling the solver
with an empty required target set returns an empty selection — the
`while remaining:` loop is never entered. -/
theorem empty_required_gives_empty_selection (villagers : Villagers) :
    optimize_min_villagers villagers ∅ = [] :=
  greedyAux_of_empty villagers [] rfl

/-- C7: determinism — the optimizers are pure functions of the provider list
(in its given order) and the required set, so two calls on identical inputs
return identical outputs. The embedded sources consume no ambient state: the
only run-to-run variation in CPython (set/dict iteration order inside one
villager's recorded price dict) is invisible in the returned mapping, which
is modelled by `Finset`. -/
theorem optimizers_deterministic :
    (∀ (villagers : Villagers) (required : Finset String),
        optimize_min_villagers villagers required =
          optimize_min_villagers villagers required) ∧
    (∀ (ve : List (Nat × List (String × Int)))
        (ec : List (String × List (Nat × Int))) (t : Int),
        VOpt.optimize_villagers ve ec t = VOpt.optimize_villagers ve ec t) :=
  ⟨fun _ _ => rfl, fun _ _ _ => rfl⟩

/-- C8: frame property — each optimizer only reads its inputs: every
assignment in the three bodies targets a local (`remaining = set(required)`
copies the required set, `optimized`/`chosen`/`result` are freshly created,
`sorted(...)` allocates a new list), so the caller's provider data and
required set are unchanged by the call. -/
theorem optimizers_preserve_inputs :
    (∀ (villagers : Villagers) (required : Finset String),
        (optimize_min_villagers_call villagers required).2 =
          (villagers, required)) ∧
    (∀ (villagers : Villagers) (required : Finset String)
        (ep : List (String × Int)) (t : Int),
        (optimize_priority_tiered_call villagers required ep t).2 =
          (villagers, required, ep)) ∧
    (∀ (ve : List (Nat × List (String × Int)))
        (ec : List (String × List (Nat × Int))) (t : Int),
        (VOpt.optimize_villagers_call ve ec t).2 = (ve, ec)) :=
  ⟨fun _ _ => rfl, fun _ _ _ _ => rfl, fun _ _ _ => rfl⟩

end VillagerOpt

namespace VOpt

/-- C9: `optimize_villagers` never reads its `cost_threshold` parameter, so
its result is identical for any two threshold values. -/
theorem optimize_villagers_threshold_independent
    (villager_enchantments : List (Nat × List (String × Int)))
    (enchantment_costs : List (String × List (Nat × Int))) (t1 t2 : Int) :
    optimize_villagers villager_enchantments enchantment_costs t1 =
      optimize_villagers villager_enchantments enchantment_costs t2 := rfl

end VOpt

namespace VillagerOpt

open Librarian

/-- C1 (amended form): whenever the full provider collection can price-cover
the required set, the greedy solver returns a selection whose combined
recorded coverage is the whole required set — but its cardinality is only the
greedy one, not the minimum (see the counterexample). Provider names must be
nonempty, since Python falsiness aborts the loop on the name `""`. -/
theorem greedy_covers_when_feasible (villagers : Villagers)
    (hV : ∀ nd ∈ villagers, nd.1 ≠ "") (required : Finset String)
    (hfeas : required ⊆ allCoverable villagers) :
    unionCov (optimize_min_villagers villagers required) = required := by
  rw [optimize_min_villagers_unionCov villagers hV required]
  exact Finset.inter_eq_left.mpr hfeas

/-- Witness for `greedy_covers_when_feasible` at a concrete instance. -/
theorem greedy_covers_when_feasible_witness :
    unionCov (optimize_min_villagers
        [("V", ⟨[("a", .legacy 2)], false⟩)] {"a"}) = {"a"} :=
  greedy_covers_when_feasible [("V", ⟨[("a", .legacy 2)], false⟩)]
    (by decide) {"a"} (by decide)

/-- Providers for the C1 counterexample: VA covers {a,b,c,d}, VB covers
{a,b,e}, VC covers {c,d,f}. -/
def cexC1dataA : VillagerData :=
  ⟨[("a", .legacy 1), ("b", .legacy 1), ("c", .legacy 1), ("d", .legacy 1)], false⟩

def cexC1dataB : VillagerData :=
  ⟨[("a", .legacy 1), ("b", .legacy 1), ("e", .legacy 1)], false⟩

def cexC1dataC : VillagerData :=
  ⟨[("c", .legacy 1), ("d", .legacy 1), ("f", .legacy 1)], false⟩

def cexC1villagers : Villagers :=
  [("VA", cexC1dataA), ("VB", cexC1dataB), ("VC", cexC1dataC)]

def cexC1required : Finset String := {"a", "b", "c", "d", "e", "f"}

-- C1 counterexample: the greedy pass picks VA (4 new items), then VB, then
-- VC — a selection of size 3 — although the sub-collection {VB, VC} (size 2)
-- already covers the whole required set. So the returned cardinality is not
-- the minimum over covering sub-collections.
unseal greedyAux in
theorem greedy_not_minimal_counterexample :
    (optimize_min_villagers cexC1villagers cexC1required).length = 3 ∧
    cexC1required ⊆
      covFull cexC1villagers ("VB", cexC1dataB) ∪
        covFull cexC1villagers ("VC", cexC1dataC) ∧
    ("VB", cexC1dataB) ∈ cexC1villagers ∧ ("VC", cexC1dataC) ∈ cexC1villagers := by
  refine ⟨by decide, by decide, by decide, by decide⟩

-- C2 counterexample: with one provider supplying only "a" and the required
-- set {"a", "b"}, the solver returns the ordinary selection [("V1", ...)] —
-- the same shape as any successful result, with no infeasibility signal —
-- even though the recorded coverage misses "b".
unseal greedyAux in
theorem silent_partial_cover_counterexample :
    optimize_min_villagers [("V1", ⟨[("a", .legacy 3)], false⟩)] {"a", "b"} =
      [("V1", {("a", some 3)})] ∧
    ¬ ({"a", "b"} : Finset String) ⊆ unionCov [("V1", {("a", some 3)})] := by
  refine ⟨by decide, by decide⟩

-- C3 counterexample: the solver has no failure signal, so every return is a
-- "success"; at this input the union of the selected providers' coverage is
-- just {"x"}, not the required {"x", "y"}.
unseal greedyAux in
theorem result_union_ne_required_counterexample :
    unionCov (optimize_min_villagers
        [("W", ⟨[("x", .legacy 2)], false⟩)] {"x", "y"}) ≠
      ({"x", "y"} : Finset String) ∧
    optimize_min_villagers [("W", ⟨[("x", .legacy 2)], false⟩)] {"x", "y"} =
      [("W", {("x", some 2)})] := by
  refine ⟨by decide, by decide⟩

/-- C3 (amended form): `optimize_min_villagers` always returns a selection
(there is no success/failure distinction), and the union of the selected
providers' recorded coverage equals the coverable part
`required ∩ allCoverable villagers` of the target — not the full target —
provided no provider is named `""`. -/
theorem result_union_eq_coverable (villagers : Villagers)
    (hV : ∀ nd ∈ villagers, nd.1 ≠ "") (required : Finset String) :
    unionCov (optimize_min_villagers villagers required) =
      required ∩ allCoverable villagers :=
  optimize_min_villagers_unionCov villagers hV required

/-- Witness for `result_union_eq_coverable` at a concrete instance. -/
theorem result_union_eq_coverable_witness :
    unionCov (optimize_min_villagers
        [("V2", ⟨[("a", .legacy 4)], false⟩)] {"a", "b"}) =
      ({"a", "b"} : Finset String) ∩
        allCoverable [("V2", ⟨[("a", .legacy 4)], false⟩)] :=
  result_union_eq_coverable [("V2", ⟨[("a", .legacy 4)], false⟩)] (by decide)
    {"a", "b"}

end VillagerOpt

namespace VOpt

/-- C2 (amended form): the greedy solver itself never signals infeasibility —
it silently returns a cover of only the coverable items (see the
counterexample). Missing coverage is surfaced by the separate caller-side
helper `find_missing_enchantments`, which returns exactly the enchantments
present in the cost data but absent from the returned optimal set. -/
theorem find_missing_characterization
    (enchantment_costs : List (String × List (Nat × Int)))
    (optimal_set : List (String × Nat × Int)) (e : String) :
    e ∈ find_missing_enchantments enchantment_costs optimal_set ↔
      (e ∈ enchantment_costs.map Prod.fst ∧ e ∉ optimal_set.map Prod.fst) := by
  simp [find_missing_enchantments, Finset.mem_sort, Finset.mem_sdiff,
    List.mem_toFinset]

end VOpt

namespace VillagerOpt

open Librarian

/-- C5 (amended form): one characterization of the greedy pass, assuming no
provider carries the empty name (Python falsiness stops the loop on `""`,
see the counterexample). The loop (i) stops when the remaining set is empty;
(ii) stops when no provider covers any remaining item at a usable price;
(iii) otherwise the scan result `(some v, cov)` is some provider's coverage
of the remaining set, is nonempty, has maximal cardinality among all
providers' coverages, and the loop records `v` with exactly the newly
covered items `cov` and continues on `remaining \ cov`. -/
theorem greedy_loop_steps (villagers : Villagers)
    (hV : ∀ nd ∈ villagers, nd.1 ≠ "") (remaining : Finset String)
    (acc : Optimized) :
    (remaining = ∅ → greedyAux villagers remaining acc = acc) ∧
    ((∀ nd ∈ villagers, covRem villagers nd remaining = ∅) →
        greedyAux villagers remaining acc = acc) ∧
    (∀ v cov, pickBest villagers remaining = (some v, cov) → remaining ≠ ∅ →
        greedyAux villagers remaining acc =
          greedyAux villagers (remaining \ cov)
            (dictSet acc v (enchPriceMap villagers v cov)) ∧
        (∃ d, (v, d) ∈ villagers ∧ cov = covRem villagers (v, d) remaining) ∧
        cov.Nonempty ∧
        (∀ nd ∈ villagers, (covRem villagers nd remaining).card ≤ cov.card)) := by
  refine ⟨fun hR => greedyAux_of_empty villagers acc hR, ?_, ?_⟩
  · intro hall
    by_cases hR : remaining = ∅
    · exact greedyAux_of_empty villagers acc hR
    · rcases hfst : (pickBest villagers remaining).1 with - | v
      · exact greedyAux_of_none villagers acc hfst
      · exfalso
        have hp : pickBest villagers remaining =
            (some v, (pickBest villagers remaining).2) := by
          rw [← hfst]
        obtain ⟨⟨d, hd, hcov⟩, hne⟩ := pickBest_mem hp
        rw [hcov, hall (v, d) hd] at hne
        exact Finset.not_nonempty_empty hne
  · intro v cov hp hRne
    obtain ⟨⟨d, hd, hcov⟩, hne⟩ := pickBest_mem hp
    have hvne : v ≠ "" := hV (v, d) hd
    have hg : ¬(v = "" ∨ cov = ∅) := by
      rintro (h | h)
      · exact hvne h
      · rw [h] at hne
        exact Finset.not_nonempty_empty hne
    refine ⟨greedyAux_step villagers acc hRne hp hg, ⟨d, hd, hcov⟩, hne, ?_⟩
    intro nd hnd
    have hm := pickBest_max villagers remaining hnd
    rw [hp] at hm
    exact hm

/-- Concrete instance used by the witness of `greedy_loop_steps`. -/
def witC5data : VillagerData := ⟨[("a", .legacy 5)], false⟩

/-- Witness for `greedy_loop_steps`: its step clause at a concrete input. -/
theorem greedy_loop_steps_witness :
    greedyAux [("V1", witC5data)] {"a", "b"} [] =
      greedyAux [("V1", witC5data)] ({"a", "b"} \ {"a"})
        (dictSet [] "V1" (enchPriceMap [("V1", witC5data)] "V1" {"a"})) ∧
    (∃ d, ("V1", d) ∈ [("V1", witC5data)] ∧
      ({"a"} : Finset String) = covRem [("V1", witC5data)] ("V1", d) {"a", "b"}) ∧
    ({"a"} : Finset String).Nonempty ∧
    (∀ nd ∈ [("V1", witC5data)],
        (covRem [("V1", witC5data)] nd {"a", "b"}).card ≤
          ({"a"} : Finset String).card) :=
  (greedy_loop_steps [("V1", witC5data)] (by decide) {"a", "b"} []).2.2 "V1" {"a"}
    (by decide) (by decide)

-- C5 counterexample: the claim's stop condition is violated through Python
-- falsiness: with a provider named "" covering "a", the loop breaks at once
-- (`not best_v` is true for the empty string), although the remaining set is
-- nonempty and a provider covers a remaining item.
unseal greedyAux in
theorem greedy_stops_on_empty_name_counterexample :
    optimize_min_villagers [("", ⟨[("a", .legacy 1)], false⟩)] {"a"} = [] ∧
    ({"a"} : Finset String) ≠ ∅ ∧
    covRem [("", ⟨[("a", .legacy 1)], false⟩)]
      ("", ⟨[("a", .legacy 1)], false⟩) {"a"} ≠ ∅ := by
  refine ⟨by decide, by decide, by decide⟩

end VillagerOpt

namespace VillagerOpt

open Librarian

/-- The scan state `(best_name, best_price)` strictly beats an offer `(p, n)`
in the lexicographic (price, name) order used by `optimize_min_cost`. -/
def scanDominates (st : Option String × PyFloat) (p : Int) (n : String) : Prop :=
  ∃ bn bp, st = (some bn, PyFloat.fin bp) ∧ (bp < p ∨ (bp = p ∧ bn ≤ n))

/-- The shapes the scan state actually takes: the initial `(None, inf)` or a
found `(name, int price)` pair. -/
def scanGood (st : Option String × PyFloat) : Prop :=
  st = (none, PyFloat.inf) ∨ ∃ bn bp, st = (some bn, PyFloat.fin bp)

theorem scanDominates_trans {st : Option String × PyFloat} {p : Int} {n : String}
    {bn' : String} {bp' : Int} (h1 : scanDominates st bp' bn')
    (h2 : bp' < p ∨ (bp' = p ∧ bn' ≤ n)) : scanDominates st p n := by
  obtain ⟨bn, bp, heq, hle⟩ := h1
  refine ⟨bn, bp, heq, ?_⟩
  rcases hle with h | ⟨he, hn⟩ <;> rcases h2 with h2 | ⟨he2, hn2⟩
  · exact Or.inl (lt_trans h h2)
  · exact Or.inl (he2 ▸ h)
  · exact Or.inl (he ▸ h2)
  · exact Or.inr ⟨he.trans he2, hn.trans hn2⟩

/-- Behaviour of the `optimize_min_cost` scan: the result keeps a well-shaped
state, lexicographically improves on the incoming state, and beats every
usable offer in the scanned list. -/
theorem minCostScan_spec (villagers : Villagers) (enchant : String)
    (l : List (String × VillagerData)) :
    ∀ st, scanGood st →
      scanGood (minCostScan villagers enchant st l) ∧
      (∀ bn bp, st = (some bn, PyFloat.fin bp) →
          scanDominates (minCostScan villagers enchant st l) bp bn) ∧
      (∀ nd ∈ l, ∀ p, current_price_for villagers nd.1 enchant = some p →
          scanDominates (minCostScan villagers enchant st l) p nd.1) := by
  induction l with
  | nil =>
    intro st hgood
    refine ⟨hgood, ?_, by simp⟩
    intro bn bp hst
    exact ⟨bn, bp, hst, Or.inr ⟨rfl, le_rfl⟩⟩
  | cons nd rest ih =>
    intro st hgood
    rcases hcp : current_price_for villagers nd.1 enchant with - | price
    · have hrw : minCostScan villagers enchant st (nd :: rest) =
          minCostScan villagers enchant st rest := by
        rw [minCostScan, hcp]
      obtain ⟨g, hdom, helem⟩ := ih st hgood
      rw [hrw]
      refine ⟨g, hdom, ?_⟩
      intro nd' hnd' p hp
      rcases List.mem_cons.mp hnd' with h1 | h1
      · subst h1
        rw [hcp] at hp
        cases hp
      · exact helem nd' h1 p hp
    · by_cases hcond :
        (intLtPF price st.2 || (intEqPF price st.2 && nameBeatsTie nd.1 st.1)) = true
      · have hrw : minCostScan villagers enchant st (nd :: rest) =
            minCostScan villagers enchant (some nd.1, .fin price) rest := by
          simp only [minCostScan, hcp]
          rw [if_pos hcond]
        obtain ⟨g, hdom, helem⟩ :=
          ih (some nd.1, .fin price) (Or.inr ⟨nd.1, price, rfl⟩)
        rw [hrw]
        have hself : scanDominates
            (minCostScan villagers enchant (some nd.1, .fin price) rest)
            price nd.1 := hdom nd.1 price rfl
        refine ⟨g, ?_, ?_⟩
        · intro bn bp hst
          rw [hst] at hcond
          simp only [intLtPF, intEqPF, nameBeatsTie, Bool.or_eq_true,
            Bool.and_eq_true, decide_eq_true_eq] at hcond
          refine scanDominates_trans hself ?_
          rcases hcond with h | ⟨h1, h2⟩
          · exact Or.inl h
          · exact Or.inr ⟨h1, le_of_lt h2⟩
        · intro nd' hnd' p hp
          rcases List.mem_cons.mp hnd' with h1 | h1
          · subst h1
            rw [hcp] at hp
            cases hp
            exact hself
          · exact helem nd' h1 p hp
      · have hrw : minCostScan villagers enchant st (nd :: rest) =
            minCostScan villagers enchant st rest := by
          simp only [minCostScan, hcp]
          rw [if_neg hcond]
        obtain ⟨g, hdom, helem⟩ := ih st hgood
        rw [hrw]
        refine ⟨g, hdom, ?_⟩
        intro nd' hnd' p hp
        rcases List.mem_cons.mp hnd' with h1 | h1
        · subst h1
          rw [hcp] at hp
          cases hp
          -- the state must already hold a pair, and it beats (price, nd'.1)
          rcases hgood with hst | ⟨bn, bp, hst⟩
          · exfalso
            rw [hst] at hcond
            simp [intLtPF] at hcond
          · rw [hst] at hcond
            simp only [intLtPF, intEqPF, nameBeatsTie, Bool.or_eq_true,
              Bool.and_eq_true, decide_eq_true_eq, not_or, not_and] at hcond
            obtain ⟨hnlt, hnties⟩ := hcond
            have h2 : bp < price ∨ (bp = price ∧ bn ≤ nd'.1) := by
              rcases lt_or_eq_of_le (not_lt.mp hnlt) with h | h
              · exact Or.inl h
              · exact Or.inr ⟨h, not_lt.mp (hnties h.symm)⟩
            exact scanDominates_trans (hdom bn bp hst) h2
        · exact helem nd' h1 p hp

/-- The greedy scan selects the earliest provider among those of maximal
gain: everything before the chosen entry has strictly smaller coverage. -/
theorem pickBest_first_max {villagers : Villagers} {remaining : Finset String}
    {v : String} {cov : Finset String}
    (h : pickBest villagers remaining = (some v, cov)) :
    ∃ l₁ d l₂, villagers = l₁ ++ (v, d) :: l₂ ∧
      cov = covRem villagers (v, d) remaining ∧
      ∀ nd ∈ l₁, (covRem villagers nd remaining).card < cov.card := by
  rw [pickBest] at h
  rcases pickBestAux_split villagers remaining h with h1 | h1
  · rw [h1] at h
    simp at h
  · obtain ⟨l₁, d, l₂, hs, hc, -, hall⟩ := h1
    exact ⟨l₁, d, l₂, hs, hc, hall⟩

end VillagerOpt

namespace VillagerOpt

open Librarian

/-- C6 (corrected form): the optimizers do not share one tie-break rule. In
the greedy scan of `optimize_min_villagers`, strict improvement
(`len(cov) > len(best_cov)`) keeps the earliest provider among those of
maximal gain: the chosen entry is preceded only by strictly smaller
coverages. In `optimize_min_cost`, an equal-price tie is broken towards the
alphabetically smaller villager name (`name < best_name`), not towards the
earlier provider in caller-supplied order (see the counterexample). -/
theorem selection_tie_breaks :
    (∀ (villagers : Villagers) (remaining : Finset String) (v : String)
        (cov : Finset String),
        pickBest villagers remaining = (some v, cov) →
        ∃ l₁ d l₂, villagers = l₁ ++ (v, d) :: l₂ ∧
          cov = covRem villagers (v, d) remaining ∧
          ∀ nd ∈ l₁, (covRem villagers nd remaining).card < cov.card) ∧
    (∀ (villagers : Villagers) (enchant bn : String) (bp : Int),
        minCostScan villagers enchant (none, .inf) villagers =
          (some bn, .fin bp) →
        ∀ nd ∈ villagers, ∀ p,
          current_price_for villagers nd.1 enchant = some p →
          bp < p ∨ (bp = p ∧ bn ≤ nd.1)) := by
  constructor
  · intro villagers remaining v cov h
    exact pickBest_first_max h
  · intro villagers enchant bn bp h nd hnd p hp
    have hspec := (minCostScan_spec villagers enchant villagers (none, .inf)
      (Or.inl rfl)).2.2 nd hnd p hp
    obtain ⟨bn', bp', heq, hle⟩ := hspec
    rw [h] at heq
    rw [Prod.mk.injEq] at heq
    obtain ⟨h1, h2⟩ := heq
    cases Option.some.inj h1
    cases h2
    exact hle

/-- Concrete instance used by the witness of `selection_tie_breaks`. -/
def witC6data : VillagerData := ⟨[("g", .legacy 7)], false⟩

/-- Witness for `selection_tie_breaks`: its greedy clause instantiated. -/
theorem selection_tie_breaks_witness :
    ∃ l₁ d l₂, [("P", witC6data)] = l₁ ++ ("P", d) :: l₂ ∧
      ({"g"} : Finset String) = covRem [("P", witC6data)] ("P", d) {"g"} ∧
      ∀ nd ∈ l₁,
        (covRem [("P", witC6data)] nd {"g"}).card < ({"g"} : Finset String).card :=
  selection_tie_breaks.1 [("P", witC6data)] {"g"} "P" {"g"} (by decide)

/-- Providers of the C6 counterexample: both offer "E" at price 5, "Z" first
in caller-supplied order. -/
def cexC6data : VillagerData := ⟨[("E", .legacy 5)], false⟩

-- C6 counterexample: `optimize_min_cost` on two equal-gain, equal-price
-- providers picks "A", the alphabetically smaller name, although "Z" appears
-- earlier in the caller-supplied order — refuting the claimed
-- earliest-in-input-order tie-break for the per-item cheapest selection.
unseal String.ltb List.merge List.mergeSort in
theorem mincost_alphabetical_counterexample :
    optimize_min_cost [("Z", cexC6data), ("A", cexC6data)] {"E"} =
      [("A", [("E", 5)])] ∧
    [("Z", cexC6data), ("A", cexC6data)].map Prod.fst = ["Z", "A"] ∧
    current_price_for [("Z", cexC6data), ("A", cexC6data)] "Z" "E" = some 5 ∧
    current_price_for [("Z", cexC6data), ("A", cexC6data)] "A" "E" = some 5 := by
  refine ⟨by decide, by rfl, by rfl, by rfl⟩

end VillagerOpt

namespace Librarian

theorem alistGet_dictSet_self {α β : Type} [DecidableEq α] (k : α) (v : β) :
    ∀ (d : List (α × β)), alistGet k (dictSet d k v) = some v := by
  intro d
  induction d with
  | nil => simp [dictSet, alistGet]
  | cons p rest ih =>
    rw [dictSet]
    split
    · rename_i h
      rw [alistGet, if_pos h]
    · rename_i h
      rw [alistGet, if_neg h]
      exact ih

theorem alistGet_dictSet_ne {α β : Type} [DecidableEq α] {k k' : α} (v : β)
    (h : k' ≠ k) :
    ∀ (d : List (α × β)), alistGet k' (dictSet d k v) = alistGet k' d := by
  intro d
  induction d with
  | nil => simp [dictSet, alistGet, Ne.symm h]
  | cons p rest ih =>
    rw [dictSet]
    split
    · rename_i hpk
      simp [alistGet, hpk, Ne.symm h]
    · simp only [alistGet]
      split
      · rfl
      · exact ih

theorem alistGet_dictUpd_self {α β : Type} [DecidableEq α] (k : α) (f : β → β)
    (dflt : β) :
    ∀ (d : List (α × β)),
      alistGet k (dictUpd d k f dflt) = some (f ((alistGet k d).getD dflt)) := by
  intro d
  induction d with
  | nil => simp [dictUpd, alistGet]
  | cons p rest ih =>
    rw [dictUpd]
    split
    · rename_i h
      rw [alistGet, if_pos h, alistGet, if_pos h]
      rfl
    · rename_i h
      rw [alistGet, if_neg h, alistGet, if_neg h]
      exact ih

theorem alistGet_dictUpd_ne {α β : Type} [DecidableEq α] {k k' : α} (f : β → β)
    (dflt : β) (h : k' ≠ k) :
    ∀ (d : List (α × β)), alistGet k' (dictUpd d k f dflt) = alistGet k' d := by
  intro d
  induction d with
  | nil => simp [dictUpd, alistGet, Ne.symm h]
  | cons p rest ih =>
    rw [dictUpd]
    split
    · rename_i hpk
      simp [alistGet, hpk, Ne.symm h]
    · simp only [alistGet]
      split
      · rfl
      · exact ih

theorem alistGet_eq_none {α β : Type} [DecidableEq α] {k : α} :
    ∀ {d : List (α × β)}, k ∉ d.map Prod.fst → alistGet k d = none := by
  intro d
  induction d with
  | nil => intro _; rfl
  | cons p rest ih =>
    intro h
    rw [List.map_cons, List.mem_cons, not_or] at h
    rw [alistGet, if_neg (fun he => h.1 he.symm)]
    exact ih h.2

theorem alistGet_of_mem_nodup {α β : Type} [DecidableEq α] {k : α} {x : β} :
    ∀ {d : List (α × β)}, (k, x) ∈ d → (d.map Prod.fst).Nodup →
      alistGet k d = some x := by
  intro d
  induction d with
  | nil => intro h; simp at h
  | cons p rest ih =>
    intro hmem hnd
    rw [List.map_cons, List.nodup_cons] at hnd
    rcases List.mem_cons.mp hmem with h1 | h1
    · rw [alistGet, if_pos (congrArg Prod.fst h1.symm)]
      rw [← h1]
    · rw [alistGet]
      split
      · rename_i heq
        exfalso
        apply hnd.1
        rw [heq]
        exact List.mem_map.mpr ⟨(k, x), h1, rfl⟩
      · exact ih h1 hnd.2

theorem mem_keys_dictSet {α β : Type} [DecidableEq α] {k' k : α} (v : β) :
    ∀ (d : List (α × β)),
      k' ∈ (dictSet d k v).map Prod.fst ↔ k' ∈ d.map Prod.fst ∨ k' = k := by
  intro d
  induction d with
  | nil => simp [dictSet]
  | cons p rest ih =>
    rw [dictSet]
    split
    · rename_i h
      simp only [List.map_cons, List.mem_cons]
      constructor
      · rintro (h1 | h1)
        · exact Or.inl (Or.inl h1)
        · exact Or.inl (Or.inr h1)
      · rintro ((h1 | h1) | h1)
        · exact Or.inl h1
        · exact Or.inr h1
        · exact Or.inl (h ▸ h1)
    · simp only [List.map_cons, List.mem_cons, ih]
      tauto

theorem keys_dictSet_nodup {α β : Type} [DecidableEq α] (k : α) (v : β) :
    ∀ {d : List (α × β)}, (d.map Prod.fst).Nodup →
      ((dictSet d k v).map Prod.fst).Nodup := by
  intro d
  induction d with
  | nil => intro _; simp [dictSet]
  | cons p rest ih =>
    intro hnd
    rw [List.map_cons, List.nodup_cons] at hnd
    rw [dictSet]
    split
    · rw [List.map_cons, List.nodup_cons]
      exact hnd
    · rename_i h
      rw [List.map_cons, List.nodup_cons]
      refine ⟨?_, ih hnd.2⟩
      intro hmem
      rcases (mem_keys_dictSet v rest).mp hmem with h1 | h1
      · exact hnd.1 h1
      · exact h h1

theorem mem_keys_dictUpd {α β : Type} [DecidableEq α] {k' k : α} (f : β → β)
    (dflt : β) :
    ∀ (d : List (α × β)),
      k' ∈ (dictUpd d k f dflt).map Prod.fst ↔ k' ∈ d.map Prod.fst ∨ k' = k := by
  intro d
  induction d with
  | nil => simp [dictUpd]
  | cons p rest ih =>
    rw [dictUpd]
    split
    · rename_i h
      simp only [List.map_cons, List.mem_cons]
      constructor
      · rintro (h1 | h1)
        · exact Or.inl (Or.inl h1)
        · exact Or.inl (Or.inr h1)
      · rintro ((h1 | h1) | h1)
        · exact Or.inl h1
        · exact Or.inr h1
        · exact Or.inl (h ▸ h1)
    · simp only [List.map_cons, List.mem_cons, ih]
      tauto

theorem keys_dictUpd_nodup {α β : Type} [DecidableEq α] (k : α) (f : β → β)
    (dflt : β) :
    ∀ {d : List (α × β)}, (d.map Prod.fst).Nodup →
      ((dictUpd d k f dflt).map Prod.fst).Nodup := by
  intro d
  induction d with
  | nil => intro _; simp [dictUpd]
  | cons p rest ih =>
    intro hnd
    rw [List.map_cons, List.nodup_cons] at hnd
    rw [dictUpd]
    split
    · rw [List.map_cons, List.nodup_cons]
      exact hnd
    · rename_i h
      rw [List.map_cons, List.nodup_cons]
      refine ⟨?_, ih hnd.2⟩
      intro hmem
      rcases (mem_keys_dictUpd f dflt rest).mp hmem with h1 | h1
      · exact hnd.1 h1
      · exact h h1

end Librarian

namespace VOpt

open Librarian

/-- The costs recorded for enchantment `e` in one villager's pair list. -/
def pairCosts (e : String) (l : List (String × Int)) : List Int :=
  l.filterMap (fun q => if q.1 = e then some q.2 else none)

/-- All costs for enchantment `e` in villager-bucket order: the per-`e` cost
stream that the `optimize_villagers` fold encounters. -/
def costsFor (e : String) (ve : List (Nat × List (String × Int))) : List Int :=
  ve.flatMap (fun p => pairCosts e p.2)

theorem mem_pairCosts {e : String} {c : Int} {l : List (String × Int)} :
    c ∈ pairCosts e l ↔ (e, c) ∈ l := by
  simp only [pairCosts, List.mem_filterMap]
  constructor
  · rintro ⟨⟨q1, q2⟩, hq, hif⟩
    by_cases h1 : q1 = e
    · rw [if_pos h1] at hif
      cases hif
      rw [← h1]
      exact hq
    · rw [if_neg h1] at hif
      cases hif
  · intro h
    exact ⟨(e, c), h, by simp⟩

theorem costsFor_cons (e : String) (p : Nat × List (String × Int))
    (l : List (Nat × List (String × Int))) :
    costsFor e (p :: l) = pairCosts e p.2 ++ costsFor e l := by
  simp [costsFor]

theorem mem_costsFor {e : String} {c : Int} {ve : List (Nat × List (String × Int))} :
    c ∈ costsFor e ve ↔ ∃ p ∈ ve, (e, c) ∈ p.2 := by
  simp [costsFor, List.mem_flatMap, mem_pairCosts]

theorem pairCosts_singleton (e : String) (x : String × Int) :
    c ∈ pairCosts e [x] ↔ (x.1 = e ∧ x.2 = c) := by
  obtain ⟨x1, x2⟩ := x
  by_cases h : x1 = e
  · simp [pairCosts, List.filterMap_cons, h]
    exact comm
  · simp [pairCosts, List.filterMap_cons, h]

theorem mem_costsFor_dictAppend {e : String} {c : Int}
    (ve : List (Nat × List (String × Int))) (k : Nat) (x : String × Int) :
    c ∈ costsFor e (dictAppend ve k x) ↔
      c ∈ costsFor e ve ∨ (x.1 = e ∧ x.2 = c) := by
  induction ve with
  | nil =>
    show c ∈ costsFor e [(k, [] ++ [x])] ↔ _
    rw [List.nil_append, costsFor_cons]
    constructor
    · intro h
      rcases List.mem_append.mp h with h1 | h1
      · exact Or.inr (pairCosts_singleton e x |>.mp h1)
      · exact absurd h1 (by simp [costsFor])
    · rintro (h | h)
      · exact absurd h (by simp [costsFor])
      · exact List.mem_append.mpr (Or.inl (pairCosts_singleton e x |>.mpr h))
  | cons p rest ih =>
    rw [dictAppend, dictUpd]
    split
    · rename_i hpk
      rw [costsFor_cons, costsFor_cons]
      show c ∈ pairCosts e (p.2 ++ [x]) ++ costsFor e rest ↔ _
      rw [pairCosts, List.filterMap_append]
      simp only [List.mem_append]
      have hx : c ∈ [x].filterMap (fun q => if q.1 = e then some q.2 else none) ↔
          (x.1 = e ∧ x.2 = c) := pairCosts_singleton e x
      rw [hx]
      show (c ∈ pairCosts e p.2 ∨ (x.1 = e ∧ x.2 = c)) ∨ c ∈ costsFor e rest ↔ _
      tauto
    · rw [costsFor_cons, costsFor_cons]
      simp only [List.mem_append, ih]
      tauto

theorem mem_costsFor_processPair (ench e : String) (c : Int) :
    ∀ (vs : List (Nat × Int))
      (st : List (Nat × List (String × Int)) × List (String × List (Nat × Int))),
      (c ∈ costsFor e ((vs.foldl (processPair ench) st).1) ↔
        c ∈ costsFor e st.1 ∨ (ench = e ∧ ∃ v, (v, c) ∈ vs)) := by
  intro vs
  induction vs with
  | nil => simp
  | cons vc rest ih =>
    intro st
    rw [List.foldl_cons, ih]
    show c ∈ costsFor e (dictAppend st.1 vc.1 (ench, vc.2)) ∨ _ ↔ _
    rw [mem_costsFor_dictAppend]
    constructor
    · rintro ((h | ⟨h1, h2⟩) | ⟨h1, v, h2⟩)
      · exact Or.inl h
      · refine Or.inr ⟨h1, vc.1, ?_⟩
        have h2a : vc.2 = c := h2
        rw [← h2a]
        exact List.mem_cons_self _ _
      · exact Or.inr ⟨h1, v, List.mem_cons_of_mem _ h2⟩
    · rintro (h | ⟨h1, v, h2⟩)
      · exact Or.inl (Or.inl h)
      · rcases List.mem_cons.mp h2 with h3 | h3
        · exact Or.inl (Or.inr ⟨h1, congrArg Prod.snd h3.symm⟩)
        · exact Or.inr ⟨h1, v, h3⟩

theorem mem_costsFor_process (e : String) (c : Int) :
    ∀ (data : Data)
      (st : List (Nat × List (String × Int)) × List (String × List (Nat × Int))),
      c ∈ costsFor e ((data.foldl processEntry st).1) ↔
        c ∈ costsFor e st.1 ∨ ∃ entry ∈ data, entry.1 = e ∧ ∃ v, (v, c) ∈ entry.2 := by
  intro data
  induction data with
  | nil => simp
  | cons entry rest ih =>
    intro st
    rw [List.foldl_cons, ih]
    show c ∈ costsFor e ((entry.2.foldl (processPair entry.1)
      (st.1, dictSet st.2 entry.1 [])).1) ∨ _ ↔ _
    rw [mem_costsFor_processPair]
    show (c ∈ costsFor e st.1 ∨ (entry.1 = e ∧ ∃ v, (v, c) ∈ entry.2)) ∨ _ ↔ _
    constructor
    · rintro ((h | h) | ⟨entry', h1, h2⟩)
      · exact Or.inl h
      · exact Or.inr ⟨entry, List.mem_cons_self _ _, h⟩
      · exact Or.inr ⟨entry', List.mem_cons_of_mem _ h1, h2⟩
    · rintro (h | ⟨entry', h1, h2⟩)
      · exact Or.inl (Or.inl h)
      · rcases List.mem_cons.mp h1 with h3 | h3
        · subst h3
          exact Or.inl (Or.inr h2)
        · exact Or.inr ⟨entry', h3, h2⟩

end VOpt

namespace VOpt

open Librarian

theorem ec_processPair_self (ench : String) :
    ∀ (vs : List (Nat × Int))
      (st : List (Nat × List (String × Int)) × List (String × List (Nat × Int)))
      (l : List (Nat × Int)), alistGet ench st.2 = some l →
      alistGet ench ((vs.foldl (processPair ench) st).2) = some (l ++ vs) := by
  intro vs
  induction vs with
  | nil =>
    intro st l h
    simpa using h
  | cons vc rest ih =>
    intro st l h
    rw [List.foldl_cons]
    have hstep : alistGet ench ((processPair ench st vc).2) = some (l ++ [vc]) := by
      show alistGet ench (dictAppend st.2 ench (vc.1, vc.2)) = _
      rw [dictAppend, alistGet_dictUpd_self, h]
      rfl
    rw [ih (processPair ench st vc) (l ++ [vc]) hstep]
    rw [List.append_assoc, List.singleton_append]

theorem ec_processPair_ne (ench : String) {k : String} (hk : k ≠ ench) :
    ∀ (vs : List (Nat × Int))
      (st : List (Nat × List (String × Int)) × List (String × List (Nat × Int))),
      alistGet k ((vs.foldl (processPair ench) st).2) = alistGet k st.2 := by
  intro vs
  induction vs with
  | nil => intro st; rfl
  | cons vc rest ih =>
    intro st
    rw [List.foldl_cons, ih]
    show alistGet k (dictAppend st.2 ench (vc.1, vc.2)) = _
    rw [dictAppend, alistGet_dictUpd_ne _ _ hk]

theorem ec_process_lookup (e : String) :
    ∀ (data : Data), (data.map Prod.fst).Nodup →
      ∀ (st : List (Nat × List (String × Int)) × List (String × List (Nat × Int))),
        alistGet e ((data.foldl processEntry st).2) =
          match alistGet e data with
          | some vs => some vs
          | none => alistGet e st.2 := by
  intro data
  induction data with
  | nil => intro _ st; rfl
  | cons entry rest ih =>
    obtain ⟨k, vs⟩ := entry
    intro hnd st
    rw [List.map_cons, List.nodup_cons] at hnd
    rw [List.foldl_cons, ih hnd.2]
    have h1 : alistGet k ((processEntry st (k, vs)).2) = some vs := by
      show alistGet k ((vs.foldl (processPair k) (st.1, dictSet st.2 k [])).2) = _
      rw [ec_processPair_self k vs (st.1, dictSet st.2 k []) []
        (alistGet_dictSet_self k [] st.2)]
      rw [List.nil_append]
    by_cases he : e = k
    · subst he
      have hrest : alistGet e rest = none :=
        alistGet_eq_none hnd.1
      rw [hrest, h1]
      rw [alistGet, if_pos rfl]
    · have hne : ∀ (st2 : List (String × List (Nat × Int))),
          alistGet e ((processEntry st (k, vs)).2) = alistGet e st.2 := by
        intro _
        show alistGet e ((vs.foldl (processPair k) (st.1, dictSet st.2 k [])).2) = _
        rw [ec_processPair_ne k he vs]
        exact alistGet_dictSet_ne [] he st.2
      have hlist : alistGet e ((k, vs) :: rest) = alistGet e rest := by
        rw [alistGet, if_neg (fun h => he h.symm)]
      rw [hlist]
      rcases hr : alistGet e rest with - | vs'
      · rw [hne st.2]
      · rfl

theorem ec_keys_nodup_processPair (ench : String) :
    ∀ (vs : List (Nat × Int))
      (st : List (Nat × List (String × Int)) × List (String × List (Nat × Int))),
      ((st.2).map Prod.fst).Nodup →
      (((vs.foldl (processPair ench) st).2).map Prod.fst).Nodup := by
  intro vs
  induction vs with
  | nil => intro st h; exact h
  | cons vc rest ih =>
    intro st h
    rw [List.foldl_cons]
    exact ih (processPair ench st vc) (keys_dictUpd_nodup ench _ [] h)

theorem ec_keys_nodup_process :
    ∀ (data : Data)
      (st : List (Nat × List (String × Int)) × List (String × List (Nat × Int))),
      ((st.2).map Prod.fst).Nodup →
      (((data.foldl processEntry st).2).map Prod.fst).Nodup := by
  intro data
  induction data with
  | nil => intro st h; exact h
  | cons entry rest ih =>
    intro st h
    rw [List.foldl_cons]
    exact ih (processEntry st entry)
      (ec_keys_nodup_processPair entry.1 entry.2 _
        (keys_dictSet_nodup entry.1 [] h))

end VOpt

namespace VOpt

open Librarian

/-- One comparison step of the `optimize_villagers` fold: the cost recorded
after seeing offer `c` when `o` was recorded before (strict improvement). -/
def optComb (o : Option Int) (c : Int) : Int :=
  match o with
  | none => c
  | some m => if c < m then c else m

/-- The running-minimum view of the `optimize_villagers` fold: starting from
the currently recorded cost (`none` when the enchantment is unseen), fold the
cost stream keeping a strict-improvement minimum. -/
def optMin (o : Option Int) : List Int → Option Int
  | [] => o
  | c :: cs => optMin (some (optComb o c)) cs

theorem optComb_le_right (o : Option Int) (c : Int) : optComb o c ≤ c := by
  rcases o with - | k
  · exact le_rfl
  · rw [optComb]
    split
    · exact le_rfl
    · rename_i h
      exact not_lt.mp h

theorem optComb_le_left (k c : Int) : optComb (some k) c ≤ k := by
  rw [optComb]
  split
  · rename_i h
    exact le_of_lt h
  · exact le_rfl

theorem optComb_cases (o : Option Int) (c : Int) :
    optComb o c = c ∨ o = some (optComb o c) := by
  rcases o with - | k
  · exact Or.inl rfl
  · rw [optComb]
    split
    · exact Or.inl rfl
    · exact Or.inr rfl

theorem optMin_append (cs1 : List Int) :
    ∀ (cs2 : List Int) (o : Option Int),
      optMin o (cs1 ++ cs2) = optMin (optMin o cs1) cs2 := by
  induction cs1 with
  | nil => intro cs2 o; rfl
  | cons c rest ih =>
    intro cs2 o
    exact ih cs2 (some (optComb o c))

theorem optMin_spec :
    ∀ (cs : List Int) (o : Option Int) (m : Int), optMin o cs = some m →
      (o = some m ∨ m ∈ cs) ∧ (∀ x ∈ cs, m ≤ x) ∧ (∀ y, o = some y → m ≤ y) := by
  intro cs
  induction cs with
  | nil =>
    intro o m h
    have ho : o = some m := h
    refine ⟨Or.inl ho, by simp, ?_⟩
    intro y hy
    rw [ho] at hy
    cases hy
    exact le_rfl
  | cons c rest ih =>
    intro o m h
    have h2 : optMin (some (optComb o c)) rest = some m := h
    obtain ⟨hmem, hub, hinit⟩ := ih _ m h2
    have hcomb : m ≤ optComb o c := hinit _ rfl
    have hmc : m ≤ c := le_trans hcomb (optComb_le_right o c)
    refine ⟨?_, ?_, ?_⟩
    · rcases hmem with h1 | h1
      · rcases optComb_cases o c with h3 | h3
        · cases h1
          rw [h3]
          exact Or.inr (List.mem_cons_self _ _)
        · cases h1
          exact Or.inl h3
      · exact Or.inr (List.mem_cons_of_mem _ h1)
    · intro x hx
      rcases List.mem_cons.mp hx with h1 | h1
      · subst h1; exact hmc
      · exact hub x h1
    · intro y hy
      subst hy
      exact le_trans hcomb (optComb_le_left y c)

theorem optStep_lookup (e : String) (vId : Nat) :
    ∀ (l : List (String × Int)) (st : List (Nat × Bool) × List (String × Nat × Int)),
      (alistGet e ((l.foldl (fun st2 ec => optStep st2 vId ec) st).2)).map
          (fun p => p.2) =
        optMin ((alistGet e st.2).map (fun p => p.2)) (pairCosts e l) := by
  intro l
  induction l with
  | nil => intro st; rfl
  | cons ec rest ih =>
    obtain ⟨e', c'⟩ := ec
    intro st
    rw [List.foldl_cons, ih]
    by_cases he : e' = e
    · subst he
      have hpc : pairCosts e' ((e', c') :: rest) = c' :: pairCosts e' rest := by
        simp [pairCosts, List.filterMap_cons]
      have hstep : optMin ((alistGet e' st.2).map (fun p => p.2))
          (c' :: pairCosts e' rest) =
          optMin (some (optComb ((alistGet e' st.2).map (fun p => p.2)) c'))
            (pairCosts e' rest) := rfl
      rw [hpc, hstep]
      congr 1
      show (alistGet e' ((optStep st vId (e', c')).2)).map (fun p => p.2) = _
      rcases hg : alistGet e' st.2 with - | pv
      · simp only [optStep, hg, Option.map_none']
        rw [alistGet_dictSet_self]
        rfl
      · simp only [optStep, hg, Option.map_some']
        split <;> rename_i hlt
        · rw [alistGet_dictSet_self]
          show some c' = some (if c' < pv.2 then c' else pv.2)
          rw [if_pos hlt]
        · rw [hg]
          show some pv.2 = some (if c' < pv.2 then c' else pv.2)
          rw [if_neg hlt]
    · have hpc : pairCosts e ((e', c') :: rest) = pairCosts e rest := by
        simp [pairCosts, List.filterMap_cons, he]
      rw [hpc]
      congr 1
      show (alistGet e ((optStep st vId (e', c')).2)).map (fun p => p.2) = _
      rcases hg : alistGet e' st.2 with - | pv
      · simp only [optStep, hg]
        rw [alistGet_dictSet_ne _ (fun h => he h.symm)]
      · simp only [optStep, hg]
        split
        · rw [alistGet_dictSet_ne _ (fun h => he h.symm)]
        · rfl

theorem optVillager_lookup (e : String) :
    ∀ (ves : List (Nat × List (String × Int)))
      (st : List (Nat × Bool) × List (String × Nat × Int)),
      (alistGet e ((ves.foldl optVillager st).2)).map (fun p => p.2) =
        optMin ((alistGet e st.2).map (fun p => p.2)) (costsFor e ves) := by
  intro ves
  induction ves with
  | nil => intro st; rfl
  | cons ve rest ih =>
    intro st
    rw [List.foldl_cons, ih, costsFor_cons, optMin_append]
    congr 1
    exact optStep_lookup e ve.1 ve.2 st

theorem mem_insertByLen {y x : Nat × List (String × Int)} :
    ∀ {l : List (Nat × List (String × Int))},
      y ∈ insertByLen x l ↔ y = x ∨ y ∈ l := by
  intro l
  induction l with
  | nil => simp [insertByLen]
  | cons z rest ih =>
    rw [insertByLen]
    split
    · simp
    · simp only [List.mem_cons, ih]
      tauto

theorem mem_sortByLenDesc {y : Nat × List (String × Int)} :
    ∀ {l : List (Nat × List (String × Int))},
      y ∈ sortByLenDesc l ↔ y ∈ l := by
  intro l
  induction l with
  | nil => simp [sortByLenDesc]
  | cons x rest ih =>
    rw [sortByLenDesc, mem_insertByLen]
    simp only [List.mem_cons, ih]

theorem mem_costsFor_sortByLenDesc {e : String} {c : Int}
    {ve : List (Nat × List (String × Int))} :
    c ∈ costsFor e (sortByLenDesc ve) ↔ c ∈ costsFor e ve := by
  rw [mem_costsFor, mem_costsFor]
  constructor
  · rintro ⟨p, hp, hm⟩
    exact ⟨p, mem_sortByLenDesc.mp hp, hm⟩
  · rintro ⟨p, hp, hm⟩
    exact ⟨p, mem_sortByLenDesc.mpr hp, hm⟩

theorem foldl_min_spec :
    ∀ (cs : List (Nat × Int)) (a : Int),
      (cs.foldl (fun m p => min m p.2) a = a ∨
        ∃ p ∈ cs, cs.foldl (fun m p => min m p.2) a = p.2) ∧
      cs.foldl (fun m p => min m p.2) a ≤ a ∧
      ∀ p ∈ cs, cs.foldl (fun m p => min m p.2) a ≤ p.2 := by
  intro cs
  induction cs with
  | nil => intro a; exact ⟨Or.inl rfl, le_rfl, by simp⟩
  | cons q rest ih =>
    intro a
    rw [List.foldl_cons]
    obtain ⟨hmem, hle, hub⟩ := ih (min a q.2)
    refine ⟨?_, le_trans hle (min_le_left _ _), ?_⟩
    · rcases hmem with h1 | ⟨p, hp, h1⟩
      · rcases min_choice a q.2 with h2 | h2
        · exact Or.inl (h1.trans h2)
        · exact Or.inr ⟨q, List.mem_cons_self _ _, h1.trans h2⟩
      · exact Or.inr ⟨p, List.mem_cons_of_mem _ hp, h1⟩
    · intro p hp
      rcases List.mem_cons.mp hp with h1 | h1
      · subst h1
        exact le_trans hle (min_le_right _ _)
      · exact hub p h1

theorem bestOf_spec {cs : List (Nat × Int)} {m : Int} (h : bestOf cs = some m) :
    (∃ p ∈ cs, m = p.2) ∧ ∀ p ∈ cs, m ≤ p.2 := by
  rcases cs with - | ⟨c, rest⟩
  · cases h
  · rw [bestOf] at h
    cases h
    obtain ⟨hmem, hle, hub⟩ := foldl_min_spec rest c.2
    constructor
    · rcases hmem with h1 | ⟨p, hp, h1⟩
      · exact ⟨c, List.mem_cons_self _ _, h1⟩
      · exact ⟨p, List.mem_cons_of_mem _ hp, h1⟩
    · intro p hp
      rcases List.mem_cons.mp hp with h1 | h1
      · subst h1
        exact hle
      · exact hub p h1

theorem gbc_lookup (e : String) :
    ∀ (ec : List (String × List (Nat × Int))), ((ec.map Prod.fst).Nodup) →
      ∀ (best : List (String × Option Int)),
        alistGet e (ec.foldl (fun b en => dictSet b en.1 (bestOf en.2)) best) =
          match alistGet e ec with
          | some cs => some (bestOf cs)
          | none => alistGet e best := by
  intro ec
  induction ec with
  | nil => intro _ best; rfl
  | cons en rest ih =>
    obtain ⟨k, cs⟩ := en
    intro hnd best
    rw [List.map_cons, List.nodup_cons] at hnd
    rw [List.foldl_cons, ih hnd.2]
    by_cases he : e = k
    · subst he
      rw [alistGet_eq_none hnd.1, alistGet_dictSet_self]
      rw [alistGet, if_pos rfl]
    · have hlist : alistGet e ((k, cs) :: rest) = alistGet e rest := by
        rw [alistGet, if_neg (fun h => he h.symm)]
      rw [hlist]
      rcases hr : alistGet e rest with - | cs'
      · exact alistGet_dictSet_ne _ he best
      · rfl

end VOpt

namespace VOpt

open Librarian

/-- C10: for data with unique enchantment keys (guaranteed by JSON object
semantics), the cost recorded for an enchantment in the `optimal_set`
returned by `optimize_villagers` equals the minimum cost any villager offers
for it — the value computed by `get_best_costs` on the same processed
data. -/
theorem optimal_cost_is_best (data : Data) (t : Int)
    (hnd : (data.map Prod.fst).Nodup) (e : String) (v : Nat) (c : Int)
    (hopt : alistGet e
        (optimize_villagers (process_data data).1 (process_data data).2 t).2 =
      some (v, c)) :
    alistGet e (get_best_costs (process_data data).2) = some (some c) := by
  have h1 : (alistGet e
      (optimize_villagers (process_data data).1 (process_data data).2 t).2).map
        (fun p => p.2) =
      optMin none (costsFor e (sortByLenDesc (process_data data).1)) :=
    optVillager_lookup e (sortByLenDesc (process_data data).1) ([], [])
  have h2 : optMin none (costsFor e (sortByLenDesc (process_data data).1)) =
      some c := by
    rw [← h1, hopt]
    rfl
  obtain ⟨hmem0, hub0, -⟩ := optMin_spec _ none c h2
  have hmem1 : c ∈ costsFor e (sortByLenDesc (process_data data).1) := by
    rcases hmem0 with h | h
    · cases h
    · exact h
  have hmemS : c ∈ costsFor e (process_data data).1 :=
    mem_costsFor_sortByLenDesc.mp hmem1
  have hubS : ∀ x ∈ costsFor e (process_data data).1, c ≤ x := fun x hx =>
    hub0 x (mem_costsFor_sortByLenDesc.mpr hx)
  have hproc := mem_costsFor_process e c data ([], [])
  rcases hproc.mp hmemS with h | ⟨entry, hent, hkey, v', hv'⟩
  · simp [costsFor] at h
  obtain ⟨k0, vs⟩ := entry
  have hent' : (e, vs) ∈ data := by
    rw [← hkey]
    exact hent
  have hlook : alistGet e data = some vs := alistGet_of_mem_nodup hent' hnd
  have hec : alistGet e (process_data data).2 = some vs := by
    have h3 := ec_process_lookup e data hnd ([], [])
    rw [hlook] at h3
    exact h3
  have hnd2 : (((process_data data).2).map Prod.fst).Nodup :=
    ec_keys_nodup_process data ([], []) (by simp)
  have hgbc : alistGet e (get_best_costs (process_data data).2) =
      some (bestOf vs) := by
    have h4 := gbc_lookup e (process_data data).2 hnd2 []
    rw [hec] at h4
    exact h4
  rcases hbo : bestOf vs with - | m
  · exfalso
    rcases vs with - | ⟨q, vs2⟩
    · simp at hv'
    · rw [bestOf] at hbo
      cases hbo
  obtain ⟨⟨p, hp, hmp⟩, hubv⟩ := bestOf_spec hbo
  have hpmem : (p.1, p.2) ∈ vs := hp
  have hx : p.2 ∈ costsFor e (process_data data).1 :=
    (mem_costsFor_process e p.2 data ([], [])).mpr
      (Or.inr ⟨(e, vs), hent', rfl, p.1, hpmem⟩)
  have hpc : c ≤ p.2 := hubS p.2 hx
  have hcm : c ≤ m := by
    rw [hmp]
    exact hpc
  have hmc : m ≤ c := hubv (v', c) hv'
  have hmeq : m = c := le_antisymm hmc hcm
  rw [hgbc, hbo, hmeq]

/-- Witness for `optimal_cost_is_best` at concrete data: one enchantment "S"
offered by villager 1 at 7 and villager 2 at 3; the optimal set records cost
3 and `get_best_costs` agrees. -/
theorem optimal_cost_is_best_witness :
    alistGet "S" (get_best_costs (process_data [("S", [(1, 7), (2, 3)])]).2) =
      some (some 3) :=
  optimal_cost_is_best [("S", [(1, 7), (2, 3)])] 0 (by decide) "S" 2 3 (by decide)

end VOpt
